import Mathlib

/-!
Verification of the octo-bloom Bloom filter extension.

The development shallowly embeds the C++ sources:
  src/bloom_filter.cpp  (class OctoBloomFilter)
  src/shared_memory.cpp (filter registry)
  src/octo_bloom.cpp    (SQL-level entry points)
Machine integers are modelled as Nat with explicit reduction modulo 2^w
at the points where C++ unsigned arithmetic wraps.  Byte buffers are
lists of Nat (each element a byte value below 256).  The IEEE-754 double
false_positive_rate is only ever copied bit-for-bit by the embedded
operations, so it is modelled by its 64-bit pattern.
-/

namespace OctoBloom

/-- Bit mask 1 << (index % 8), as in add and mightContain. -/
def bitMask (index : ℕ) : ℕ := 1 <<< (index % 8)

/-- Embeds the bit-setting statement of OctoBloomFilter::add:
bits_[index / 8] |= 1 << (index % 8). -/
def setBitAt (bits : List ℕ) (index : ℕ) : List ℕ :=
  bits.set (index / 8) (bits.getD (index / 8) 0 ||| bitMask index)

/-- Embeds the bit test of OctoBloomFilter::mightContain:
bits_[index / 8] & (1 << (index % 8)) is nonzero. -/
def testBitAt (bits : List ℕ) (index : ℕ) : Bool :=
  bits.getD (index / 8) 0 &&& bitMask index != 0

/-- Little-endian encoding of v into w bytes, the memory image of a
fixed-width unsigned store as performed by serialize. -/
def toLE : ℕ → ℕ → List ℕ
  | 0, _ => []
  | w + 1, v => v % 256 :: toLE w (v / 256)

/-- Little-endian decoding of w bytes starting at offset off, the memory
image of a fixed-width unsigned load as performed by deserialize. -/
def fromLE (buf : List ℕ) : ℕ → ℕ → ℕ
  | _, 0 => 0
  | off, w + 1 => buf.getD off 0 + 256 * fromLE buf (off + 1) w

/-- The state of class OctoBloomFilter (src/bloom_filter.hpp).  The
field false_positive_rate_bits is the 64-bit pattern of the stored
double false_positive_rate_. -/
structure OctoBloomFilter where
  bits : List ℕ
  num_hashes : ℕ
  expected_count : ℕ
  false_positive_rate_bits : ℕ
  bit_array_size : ℕ
  byte_array_size : ℕ
deriving DecidableEq, Repr

namespace OctoBloomFilter

/-- Embeds the constructor OctoBloomFilter::OctoBloomFilter.  The two
double-precision derivations (the cast of
-(expected_count * log(fpr)) / log(2)^2 to size_t and the cast of
round((bits / expected_count) * log 2) to uint32_t) are floating-point
computations with no exact embedding; their results enter here as the
parameters raw_bits and raw_hashes, and everything from the clamps on
is embedded faithfully.  raw_bits is a size_t value, raw_hashes a
uint32_t value. -/
def construct (ec fpr_bits raw_bits raw_hashes : ℕ) : OctoBloomFilter :=
  let ba := max (raw_bits % 2 ^ 64) 64
  let nh := min (max (raw_hashes % 2 ^ 32) 1) 50
  let bas := ((ba + 7) % 2 ^ 64) / 8
  { bits := List.replicate bas 0
    num_hashes := nh
    expected_count := ec % 2 ^ 64
    false_positive_rate_bits := fpr_bits % 2 ^ 64
    bit_array_size := ba
    byte_array_size := bas }

/-- Embeds OctoBloomFilter::simple_hash (DJB2 fallback), uint64
arithmetic. -/
def simple_hash (data : List ℕ) : ℕ :=
  data.foldl (fun h b => ((h <<< 5) + h + b) % 2 ^ 64) 5381

/-- Embeds OctoBloomFilter::hash1.  PostgreSQL hash_any is external to
this repository; modelled from the spec as an arbitrary 64-bit hash
function hashAny (its value is reduced mod 2^64 as a Datum).  Empty
input yields 0; a zero hash_any result falls back to simple_hash. -/
def hash1 (hashAny : List ℕ → ℕ) (data : List ℕ) : ℕ :=
  if data = [] then 0
  else if hashAny data % 2 ^ 64 = 0 then simple_hash data
  else hashAny data % 2 ^ 64

/-- Embeds OctoBloomFilter::hash2 (FNV-1a style with distinct seed),
uint64 arithmetic. -/
def hash2 (data : List ℕ) : ℕ :=
  if data = [] then 1
  else data.foldl
    (fun h b =>
      let hx := h ^^^ b
      let hm := (hx * 0x100000001b3) % 2 ^ 64
      hm ^^^ (hm >>> 32))
    0x9e3779b97f4a7c15

/-- Embeds OctoBloomFilter::doubleHash. -/
def doubleHash (hashAny : List ℕ → ℕ) (data : List ℕ) : ℕ × ℕ :=
  (hash1 hashAny data, hash2 data)

/-- The i-th probed bit position: (h1 + i * h2) in uint64 arithmetic,
then reduced modulo bit_array_size. -/
def position (h1 h2 ba i : ℕ) : ℕ := ((h1 + i * h2) % 2 ^ 64) % ba

/-- Embeds OctoBloomFilter::add. -/
def add (hashAny : List ℕ → ℕ) (f : OctoBloomFilter) (data : List ℕ) :
    OctoBloomFilter :=
  let h := doubleHash hashAny data
  { f with
    bits := (List.range f.num_hashes).foldl
      (fun b i => setBitAt b (position h.1 h.2 f.bit_array_size i)) f.bits }

/-- Embeds OctoBloomFilter::mightContain. -/
def mightContain (hashAny : List ℕ → ℕ) (f : OctoBloomFilter)
    (data : List ℕ) : Bool :=
  let h := doubleHash hashAny data
  (List.range f.num_hashes).all
    (fun i => testBitAt f.bits (position h.1 h.2 f.bit_array_size i))

/-- Embeds OctoBloomFilter::remove: warns and leaves the filter
unchanged. -/
def remove (f : OctoBloomFilter) (_data : List ℕ) : OctoBloomFilter := f

/-- Embeds OctoBloomFilter::clear: zeroes the byte buffer. -/
def clear (f : OctoBloomFilter) : OctoBloomFilter :=
  { f with bits := List.replicate f.byte_array_size 0 }

/-- Embeds OctoBloomFilter::getSerializedSize (size_t arithmetic). -/
def getSerializedSize (f : OctoBloomFilter) : ℕ :=
  (8 * 3 + 4 + ((f.bit_array_size + 7) % 2 ^ 64) / 8) % 2 ^ 64

/-- Embeds OctoBloomFilter::serialize: 8-byte expected_count, 8-byte
bit_array_size, 8-byte double pattern, 4-byte num_hashes, then the byte
buffer. -/
def serialize (f : OctoBloomFilter) : List ℕ :=
  toLE 8 f.expected_count ++ toLE 8 f.bit_array_size ++
    toLE 8 f.false_positive_rate_bits ++ toLE 4 f.num_hashes ++ f.bits

/-- Embeds OctoBloomFilter::deserialize.  Returns the C++ bool result
together with the post-call object state: the source assigns the header
fields before the full-length check, so a buffer that passes the 28-byte
check but fails the full-length check leaves the object with the new
header but the old bit buffer. -/
def deserialize (f : OctoBloomFilter) (buf : List ℕ) (size : ℕ) :
    Bool × OctoBloomFilter :=
  if size < 8 * 3 + 4 then (false, f)
  else
    let ec := fromLE buf 0 8
    let ba := fromLE buf 8 8
    let fpr := fromLE buf 16 8
    let nh := fromLE buf 24 4
    let f1 := { f with
      expected_count := ec
      bit_array_size := ba
      false_positive_rate_bits := fpr
      num_hashes := nh }
    let expected_size := (8 * 3 + 4 + ((ba + 7) % 2 ^ 64) / 8) % 2 ^ 64
    if size < expected_size then (false, f1)
    else
      let bas := ((ba + 7) % 2 ^ 64) / 8
      (true,
        { f1 with
          byte_array_size := bas
          bits := (buf.drop 28).take bas })

/-- Well-formedness of a filter state: what the constructor establishes
(under the physical bound on the size_t bit count) and every mutation
of the class preserves. -/
def WF (f : OctoBloomFilter) : Prop :=
  0 < f.bit_array_size ∧
  f.bit_array_size + 7 < 2 ^ 64 ∧
  f.byte_array_size = (f.bit_array_size + 7) / 8 ∧
  f.bits.length = f.byte_array_size ∧
  (∀ b ∈ f.bits, b < 256) ∧
  f.expected_count < 2 ^ 64 ∧
  f.false_positive_rate_bits < 2 ^ 64 ∧
  f.num_hashes < 2 ^ 32

instance (f : OctoBloomFilter) : Decidable (WF f) := by
  unfold WF; infer_instance

end OctoBloomFilter

/-- The registry entry BloomRegistryEntry (src/shared_memory.hpp).  The
filter pointer is modelled as an Option: none stands for a null or
destroyed (freed) pointer.  The LWLock field is omitted: locking is
commented out everywhere in the source. -/
structure BloomRegistryEntry where
  table_oid : ℕ
  attnum : ℤ
  filter : Option OctoBloomFilter
  expected_count : ℕ
  false_positive_rate_bits : ℕ
  current_count : ℕ
  is_valid : Bool
deriving DecidableEq, Repr

/-- The key built from (Oid table_oid, int16 attnum) by memcpy into the
6-byte hash key. -/
abbrev RegKey := ℕ × ℤ

/-- The shared hash table bloom_registry (a PostgreSQL HTAB, external
to this repository), modelled as an association list with at most one
entry per key, mirroring hash_search semantics. -/
abbrev Registry := List (RegKey × BloomRegistryEntry)

/-- hash_search with HASH_FIND: the entry stored under the key, if
any. -/
def regFind : Registry → RegKey → Option BloomRegistryEntry
  | [], _ => none
  | (k0, e) :: t, k => if k0 = k then some e else regFind t k

/-- Overwriting the entry stored under an existing key in place, as the
source does through the pointer returned by hash_search. -/
def regReplace : Registry → RegKey → BloomRegistryEntry → Registry
  | [], _, _ => []
  | (k0, e0) :: t, k, e =>
      if k0 = k then (k, e) :: t else (k0, e0) :: regReplace t k e

/-- Embeds get_bloom_filter (src/shared_memory.cpp): the entry filter
when an entry exists and is marked valid, otherwise null.  A missing
bloom_shared_state behaves as the empty registry. -/
def get_bloom_filter (reg : Registry) (table_oid : ℕ) (attnum : ℤ) :
    Option OctoBloomFilter :=
  match regFind reg (table_oid, attnum) with
  | some entry => if entry.is_valid then entry.filter else none
  | none => none

/-- Embeds register_bloom_filter (src/shared_memory.cpp).  alloc_ok
models whether the allocations (hash_search HASH_ENTER slot and the
palloc of the filter) succeed; a failed palloc raises a PostgreSQL
error, modelled as result none, and control leaves the function at that
point.  The source order in the existing-entry branch is kept exactly:
the old filter is destructed and pfreed before the replacement is
allocated, so a palloc failure there leaves the entry holding a
destroyed filter (modelled none) with is_valid untouched.  In the
new-entry branch an allocation failure is modelled as a single atomic
failure leaving the registry unchanged. -/
def register_bloom_filter (reg : Registry) (table_oid : ℕ) (attnum : ℤ)
    (ec fpr_bits raw_bits raw_hashes : ℕ) (alloc_ok : Bool) :
    Option Bool × Registry :=
  let k : RegKey := (table_oid, attnum)
  match regFind reg k with
  | some entry =>
      let freed := { entry with filter := none }
      if alloc_ok then
        (some true,
          regReplace reg k
            { freed with
              filter := some (OctoBloomFilter.construct ec fpr_bits raw_bits raw_hashes)
              expected_count := ec
              false_positive_rate_bits := fpr_bits
              current_count := 0
              is_valid := true })
      else
        (none, regReplace reg k freed)
  | none =>
      if alloc_ok then
        (some true,
          reg ++ [(k,
            { table_oid := table_oid
              attnum := attnum
              filter := some (OctoBloomFilter.construct ec fpr_bits raw_bits raw_hashes)
              expected_count := ec
              false_positive_rate_bits := fpr_bits
              current_count := 0
              is_valid := true })])
      else (none, reg)

/-- Embeds the body of octo_bloom_might_contain (src/octo_bloom.cpp)
after argument marshalling and column resolution: null filter → true,
zero bit-array size → true, otherwise the filter answer on the value
bytes. -/
def octo_bloom_might_contain (hashAny : List ℕ → ℕ) (reg : Registry)
    (table_oid : ℕ) (attnum : ℤ) (value : List ℕ) : Bool :=
  match get_bloom_filter reg table_oid attnum with
  | none => true
  | some fl =>
      if fl.bit_array_size = 0 then true
      else fl.mightContain hashAny value

/-! Bit-level lemmas about the byte-buffer primitives. -/

theorem bitMask_eq (i : ℕ) : bitMask i = 2 ^ (i % 8) := Nat.one_shiftLeft _

theorem bitMask_lt (i : ℕ) : bitMask i < 256 := by
  rw [bitMask_eq]
  calc 2 ^ (i % 8) ≤ 2 ^ 7 := Nat.pow_le_pow_right (by norm_num) (by omega)
    _ < 256 := by norm_num

theorem testBitAt_eq_testBit (b : List ℕ) (i : ℕ) :
    testBitAt b i = (b.getD (i / 8) 0).testBit (i % 8) := by
  unfold testBitAt
  rw [bitMask_eq, Nat.and_two_pow]
  cases h : (b.getD (i / 8) 0).testBit (i % 8) <;> simp [h]

theorem setBitAt_length (b : List ℕ) (i : ℕ) :
    (setBitAt b i).length = b.length := List.length_set ..

theorem testBitAt_setBitAt_self (b : List ℕ) (i : ℕ) (h : i / 8 < b.length) :
    testBitAt (setBitAt b i) i = true := by
  rw [testBitAt_eq_testBit]
  unfold setBitAt
  rw [List.getD_eq_getElem?_getD, List.getElem?_set]
  simp only [if_pos rfl, if_pos h]
  simp [Nat.testBit_or, List.getD_eq_getElem?_getD, bitMask_eq,
    Nat.testBit_two_pow_self]

theorem testBitAt_setBitAt_mono (b : List ℕ) (i j : ℕ)
    (h : testBitAt b i = true) : testBitAt (setBitAt b j) i = true := by
  rw [testBitAt_eq_testBit] at h ⊢
  unfold setBitAt
  rw [List.getD_eq_getElem?_getD, List.getElem?_set]
  by_cases hij : j / 8 = i / 8
  · rw [if_pos hij]
    by_cases hlen : j / 8 < b.length
    · rw [if_pos hlen]
      simp only [Option.getD_some, Nat.testBit_or, hij]
      rw [h]
      rfl
    · exfalso
      have hgd : b.getD (i / 8) 0 = 0 := by
        rw [List.getD_eq_getElem?_getD, List.getElem?_eq_none (by omega)]
        rfl
      rw [hgd, Nat.zero_testBit] at h
      exact Bool.false_ne_true h
  · rw [if_neg hij, ← List.getD_eq_getElem?_getD]
    exact h

theorem testBitAt_foldl_setBitAt_mono (ps : List ℕ) (b : List ℕ) (q : ℕ)
    (h : testBitAt b q = true) :
    testBitAt (ps.foldl setBitAt b) q = true := by
  induction ps generalizing b with
  | nil => exact h
  | cons p t ih => exact ih _ (testBitAt_setBitAt_mono _ _ _ h)

theorem length_foldl_setBitAt (ps : List ℕ) (b : List ℕ) :
    (ps.foldl setBitAt b).length = b.length := by
  induction ps generalizing b with
  | nil => rfl
  | cons p t ih => rw [List.foldl_cons, ih, setBitAt_length]

theorem testBitAt_foldl_setBitAt_self (ps : List ℕ) (b : List ℕ)
    (hb : ∀ p ∈ ps, p / 8 < b.length) :
    ∀ p ∈ ps, testBitAt (ps.foldl setBitAt b) p = true := by
  induction ps generalizing b with
  | nil => intro p hp; cases hp
  | cons p0 t ih =>
      intro p hp
      rw [List.foldl_cons]
      rcases List.mem_cons.mp hp with rfl | hpt
      · exact testBitAt_foldl_setBitAt_mono t _ p
          (testBitAt_setBitAt_self b p (hb p (List.mem_cons_self ..)))
      · exact ih (setBitAt b p0)
          (fun q hq => by rw [setBitAt_length]; exact hb q (List.mem_cons_of_mem _ hq))
          p hpt

theorem getD_lt_of_bytes (b : List ℕ) (n : ℕ) (hb : ∀ x ∈ b, x < 256) :
    b.getD n 0 < 256 := by
  rw [List.getD_eq_getElem?_getD]
  cases h : b[n]? with
  | none => simp
  | some v => simpa using hb v (List.getElem?_mem h)

theorem setBitAt_bytes_lt (b : List ℕ) (i : ℕ) (hb : ∀ x ∈ b, x < 256) :
    ∀ x ∈ setBitAt b i, x < 256 := by
  intro x hx
  obtain ⟨k, hk, rfl⟩ := List.mem_iff_getElem.mp hx
  unfold setBitAt at hk ⊢
  rw [List.getElem_set]
  split
  · have h8 : (256 : ℕ) = 2 ^ 8 := by norm_num
    rw [h8]
    exact Nat.or_lt_two_pow (h8 ▸ getD_lt_of_bytes b _ hb) (h8 ▸ bitMask_lt i)
  · exact hb _ (List.getElem_mem _)

theorem foldl_setBitAt_bytes_lt (ps : List ℕ) (b : List ℕ)
    (hb : ∀ x ∈ b, x < 256) :
    ∀ x ∈ ps.foldl setBitAt b, x < 256 := by
  induction ps generalizing b with
  | nil => exact hb
  | cons p t ih => exact ih _ (setBitAt_bytes_lt b p hb)

theorem testBitAt_replicate_zero (n i : ℕ) :
    testBitAt (List.replicate n 0) i = false := by
  rw [testBitAt_eq_testBit]
  have hz : (List.replicate n (0 : ℕ)).getD (i / 8) 0 = 0 := by
    rw [List.getD_eq_getElem?_getD, List.getElem?_replicate]
    split <;> rfl
  rw [hz]
  exact Nat.zero_testBit _

/-! Filter-level lemmas. -/

namespace OctoBloomFilter

theorem construct_bit_array_size (ec fpr rb rh : ℕ) :
    (construct ec fpr rb rh).bit_array_size = max (rb % 2 ^ 64) 64 := rfl

theorem construct_num_hashes (ec fpr rb rh : ℕ) :
    (construct ec fpr rb rh).num_hashes = min (max (rh % 2 ^ 32) 1) 50 := rfl

theorem construct_num_hashes_pos (ec fpr rb rh : ℕ) :
    1 ≤ (construct ec fpr rb rh).num_hashes := by
  rw [construct_num_hashes]
  omega

theorem construct_byte_array_size (ec fpr rb rh : ℕ) :
    (construct ec fpr rb rh).byte_array_size =
      ((max (rb % 2 ^ 64) 64 + 7) % 2 ^ 64) / 8 := rfl

theorem construct_bits (ec fpr rb rh : ℕ) :
    (construct ec fpr rb rh).bits =
      List.replicate (((max (rb % 2 ^ 64) 64 + 7) % 2 ^ 64) / 8) 0 := rfl

theorem construct_expected_count (ec fpr rb rh : ℕ) :
    (construct ec fpr rb rh).expected_count = ec % 2 ^ 64 := rfl

theorem construct_false_positive_rate_bits (ec fpr rb rh : ℕ) :
    (construct ec fpr rb rh).false_positive_rate_bits = fpr % 2 ^ 64 := rfl

theorem construct_WF (ec fpr rb rh : ℕ) (hrb : rb < 2 ^ 64 - 7) :
    (construct ec fpr rb rh).WF := by
  have hmod : rb % 2 ^ 64 = rb := Nat.mod_eq_of_lt (by omega)
  have hmod7 : (max (rb % 2 ^ 64) 64 + 7) % 2 ^ 64 = max (rb % 2 ^ 64) 64 + 7 := by
    rw [hmod]
    exact Nat.mod_eq_of_lt (by omega)
  refine ⟨?_, ?_, ?_, ?_, ?_, ?_, ?_, ?_⟩
  · rw [construct_bit_array_size]; omega
  · rw [construct_bit_array_size, hmod]; omega
  · rw [construct_byte_array_size, construct_bit_array_size, hmod7]
  · rw [construct_bits, List.length_replicate, construct_byte_array_size]
  · rw [construct_bits]
    intro b hb
    rw [List.eq_of_mem_replicate hb]
    norm_num
  · rw [construct_expected_count]; exact Nat.mod_lt _ (by norm_num)
  · rw [construct_false_positive_rate_bits]; exact Nat.mod_lt _ (by norm_num)
  · rw [construct_num_hashes]; omega

theorem add_fields (hA : List ℕ → ℕ) (f : OctoBloomFilter) (x : List ℕ) :
    (add hA f x).num_hashes = f.num_hashes ∧
    (add hA f x).expected_count = f.expected_count ∧
    (add hA f x).false_positive_rate_bits = f.false_positive_rate_bits ∧
    (add hA f x).bit_array_size = f.bit_array_size ∧
    (add hA f x).byte_array_size = f.byte_array_size :=
  ⟨rfl, rfl, rfl, rfl, rfl⟩

theorem add_bits (hA : List ℕ → ℕ) (f : OctoBloomFilter) (x : List ℕ) :
    (add hA f x).bits =
      ((List.range f.num_hashes).map
        (position (doubleHash hA x).1 (doubleHash hA x).2 f.bit_array_size)).foldl
        setBitAt f.bits := by
  unfold add
  rw [List.foldl_map]

theorem position_lt (h1 h2 ba i : ℕ) (hba : 0 < ba) :
    position h1 h2 ba i < ba := Nat.mod_lt _ hba

theorem WF_add (hA : List ℕ → ℕ) (f : OctoBloomFilter) (x : List ℕ)
    (hf : f.WF) : (add hA f x).WF := by
  obtain ⟨hba, hba7, hbas, hlen, hbytes, hec, hfpr, hnh⟩ := hf
  obtain ⟨e1, e2, e3, e4, e5⟩ := add_fields hA f x
  refine ⟨?_, ?_, ?_, ?_, ?_, ?_, ?_, ?_⟩
  · rw [e4]; exact hba
  · rw [e4]; exact hba7
  · rw [e4, e5]; exact hbas
  · rw [add_bits, e5, length_foldl_setBitAt]; exact hlen
  · rw [add_bits]; exact foldl_setBitAt_bytes_lt _ _ hbytes
  · rw [e2]; exact hec
  · rw [e3]; exact hfpr
  · rw [e1]; exact hnh

theorem mightContain_eq_all (hA : List ℕ → ℕ) (f : OctoBloomFilter)
    (x : List ℕ) :
    mightContain hA f x =
      (List.range f.num_hashes).all
        (fun i =>
          testBitAt f.bits
            (position (doubleHash hA x).1 (doubleHash hA x).2
              f.bit_array_size i)) := rfl

theorem position_div_lt (p ba : ℕ) (hp : p < ba) :
    p / 8 < (ba + 7) / 8 := by omega

theorem mightContain_add_self (hA : List ℕ → ℕ) (f : OctoBloomFilter)
    (x : List ℕ) (hf : f.WF) :
    mightContain hA (add hA f x) x = true := by
  obtain ⟨hba, hba7, hbas, hlen, hbytes, hec, hfpr, hnh⟩ := hf
  obtain ⟨e1, _, _, e4, _⟩ := add_fields hA f x
  rw [mightContain_eq_all, e1, e4, add_bits, List.all_eq_true]
  intro i hi
  apply testBitAt_foldl_setBitAt_self
  · intro p hp
    obtain ⟨j, _, rfl⟩ := List.mem_map.mp hp
    rw [hlen, hbas]
    exact position_div_lt _ _ (position_lt _ _ _ _ hba)
  · exact List.mem_map_of_mem _ hi

theorem mightContain_add_mono (hA : List ℕ → ℕ) (f : OctoBloomFilter)
    (x y : List ℕ) (h : mightContain hA f x = true) :
    mightContain hA (add hA f y) x = true := by
  obtain ⟨e1, _, _, e4, _⟩ := add_fields hA f y
  rw [mightContain_eq_all, List.all_eq_true] at h ⊢
  rw [e1, e4]
  intro i hi
  rw [add_bits]
  exact testBitAt_foldl_setBitAt_mono _ _ _ (h i hi)

theorem WF_foldl_add (hA : List ℕ → ℕ) (f : OctoBloomFilter)
    (ys : List (List ℕ)) (hf : f.WF) :
    (List.foldl (add hA) f ys).WF := by
  induction ys generalizing f with
  | nil => exact hf
  | cons y t ih => exact ih _ (WF_add hA f y hf)

theorem mightContain_foldl_add_mono (hA : List ℕ → ℕ) (f : OctoBloomFilter)
    (x : List ℕ) (ys : List (List ℕ)) (h : mightContain hA f x = true) :
    mightContain hA (List.foldl (add hA) f ys) x = true := by
  induction ys generalizing f with
  | nil => exact h
  | cons y t ih => exact ih _ (mightContain_add_mono hA f x y h)

end OctoBloomFilter

/-! Serialization lemmas. -/

theorem toLE_length (w v : ℕ) : (toLE w v).length = w := by
  induction w generalizing v with
  | zero => rfl
  | succ n ih => simp [toLE, ih]

theorem fromLE_cons_succ (a : ℕ) (t : List ℕ) (o w : ℕ) :
    fromLE (a :: t) (o + 1) w = fromLE t o w := by
  induction w generalizing o with
  | zero => rfl
  | succ n ih =>
      unfold fromLE
      rw [List.getD_cons_succ, ih]

theorem fromLE_append_left (xs ys : List ℕ) (o w : ℕ)
    (h : o + w ≤ xs.length) :
    fromLE (xs ++ ys) o w = fromLE xs o w := by
  induction w generalizing o with
  | zero => rfl
  | succ n ih =>
      unfold fromLE
      have ho : o < xs.length := by omega
      have hgd : (xs ++ ys).getD o 0 = xs.getD o 0 := by
        rw [List.getD_eq_getElem?_getD, List.getD_eq_getElem?_getD,
          List.getElem?_append, if_pos ho]
      rw [hgd, ih (o + 1) (by omega)]

theorem fromLE_append_right (xs ys : List ℕ) (o w : ℕ) :
    fromLE (xs ++ ys) (xs.length + o) w = fromLE ys o w := by
  induction xs with
  | nil => simp
  | cons a t ih =>
      rw [List.cons_append, List.length_cons]
      have : t.length + 1 + o = (t.length + o) + 1 := by omega
      rw [this, fromLE_cons_succ, ih]

theorem fromLE_toLE (w v : ℕ) (h : v < 256 ^ w) :
    fromLE (toLE w v) 0 w = v := by
  induction w generalizing v with
  | zero =>
      have hv : v = 0 := by simpa using h
      subst hv
      rfl
  | succ n ih =>
      unfold toLE fromLE
      rw [List.getD_cons_zero, fromLE_cons_succ,
        ih (v / 256)
          (Nat.div_lt_of_lt_mul (by rw [pow_succ, Nat.mul_comm] at h; exact h))]
      exact Nat.mod_add_div v 256

theorem toLE_bytes_lt (w v : ℕ) : ∀ x ∈ toLE w v, x < 256 := by
  induction w generalizing v with
  | zero => intro x hx; cases hx
  | succ n ih =>
      intro x hx
      unfold toLE at hx
      rcases List.mem_cons.mp hx with rfl | hxt
      · exact Nat.mod_lt _ (by norm_num)
      · exact ih _ x hxt

theorem serialize_bytes_lt (f : OctoBloomFilter) (hf : f.WF) :
    ∀ x ∈ f.serialize, x < 256 := by
  obtain ⟨_, _, _, _, hbytes, _, _, _⟩ := hf
  intro x hx
  unfold OctoBloomFilter.serialize at hx
  simp only [List.mem_append] at hx
  rcases hx with ((((h | h) | h) | h) | h)
  · exact toLE_bytes_lt _ _ x h
  · exact toLE_bytes_lt _ _ x h
  · exact toLE_bytes_lt _ _ x h
  · exact toLE_bytes_lt _ _ x h
  · exact hbytes x h

theorem fromLE_append_right' (xs ys : List ℕ) (o w n : ℕ)
    (h : n = xs.length + o) :
    fromLE (xs ++ ys) n w = fromLE ys o w := by
  subst h
  exact fromLE_append_right xs ys o w

theorem drop_append' (xs ys : List ℕ) (n i : ℕ) (h : n = xs.length + i) :
    (xs ++ ys).drop n = ys.drop i := by
  subst h
  rw [List.drop_append]

namespace OctoBloomFilter

theorem serialize_decode_ec (f : OctoBloomFilter)
    (hec : f.expected_count < 2 ^ 64) :
    fromLE f.serialize 0 8 = f.expected_count := by
  unfold serialize
  rw [List.append_assoc, List.append_assoc, List.append_assoc]
  rw [fromLE_append_left _ _ 0 8 (by rw [toLE_length])]
  exact fromLE_toLE 8 _ (by norm_num at hec ⊢; exact hec)

theorem serialize_decode_ba (f : OctoBloomFilter)
    (hba : f.bit_array_size < 2 ^ 64) :
    fromLE f.serialize 8 8 = f.bit_array_size := by
  unfold serialize
  rw [List.append_assoc, List.append_assoc, List.append_assoc]
  rw [fromLE_append_right' _ _ 0 8 8 (by rw [toLE_length]),
    fromLE_append_left _ _ 0 8 (by rw [toLE_length])]
  exact fromLE_toLE 8 _ (by norm_num at hba ⊢; exact hba)

theorem serialize_decode_fpr (f : OctoBloomFilter)
    (hfpr : f.false_positive_rate_bits < 2 ^ 64) :
    fromLE f.serialize 16 8 = f.false_positive_rate_bits := by
  unfold serialize
  rw [List.append_assoc, List.append_assoc, List.append_assoc]
  rw [fromLE_append_right' _ _ 8 8 16 (by rw [toLE_length]),
    fromLE_append_right' _ _ 0 8 8 (by rw [toLE_length]),
    fromLE_append_left _ _ 0 8 (by rw [toLE_length])]
  exact fromLE_toLE 8 _ (by norm_num at hfpr ⊢; exact hfpr)

theorem serialize_decode_nh (f : OctoBloomFilter)
    (hnh : f.num_hashes < 2 ^ 32) :
    fromLE f.serialize 24 4 = f.num_hashes := by
  unfold serialize
  rw [List.append_assoc, List.append_assoc, List.append_assoc]
  rw [fromLE_append_right' _ _ 16 4 24 (by rw [toLE_length]),
    fromLE_append_right' _ _ 8 4 16 (by rw [toLE_length]),
    fromLE_append_right' _ _ 0 4 8 (by rw [toLE_length]),
    fromLE_append_left _ _ 0 4 (by rw [toLE_length])]
  exact fromLE_toLE 4 _ (by norm_num at hnh ⊢; exact hnh)

theorem serialize_drop_28 (f : OctoBloomFilter) :
    f.serialize.drop 28 = f.bits := by
  unfold serialize
  rw [List.append_assoc, List.append_assoc, List.append_assoc]
  rw [drop_append' _ _ 28 20 (by rw [toLE_length]),
    drop_append' _ _ 20 12 (by rw [toLE_length]),
    drop_append' _ _ 12 4 (by rw [toLE_length]),
    drop_append' _ _ 4 0 (by rw [toLE_length]),
    List.drop_zero]

theorem serialize_length (f : OctoBloomFilter) :
    f.serialize.length = 28 + f.bits.length := by
  unfold serialize
  simp [toLE_length]
  omega

theorem getSerializedSize_eq (f : OctoBloomFilter)
    (hba7 : f.bit_array_size + 7 < 2 ^ 64) :
    f.getSerializedSize = 28 + (f.bit_array_size + 7) / 8 := by
  unfold getSerializedSize
  rw [Nat.mod_eq_of_lt hba7]
  exact Nat.mod_eq_of_lt (by omega)

theorem deserialize_serialize (g f : OctoBloomFilter) (hf : f.WF) :
    deserialize g f.serialize f.getSerializedSize = (true, f) := by
  obtain ⟨hba, hba7, hbas, hlen, hbytes, hec, hfpr, hnh⟩ := hf
  have hmod7 : (f.bit_array_size + 7) % 2 ^ 64 = f.bit_array_size + 7 :=
    Nat.mod_eq_of_lt hba7
  have hsz := getSerializedSize_eq f hba7
  have htake : f.bits.take ((f.bit_array_size + 7) / 8) = f.bits :=
    List.take_of_length_le (by rw [hlen, hbas])
  simp only [deserialize]
  rw [if_neg (by rw [hsz]; omega)]
  rw [serialize_decode_ec f hec, serialize_decode_ba f (by omega),
    serialize_decode_fpr f hfpr, serialize_decode_nh f hnh,
    serialize_drop_28, hmod7,
    Nat.mod_eq_of_lt (a := 8 * 3 + 4 + (f.bit_array_size + 7) / 8) (by omega)]
  rw [if_neg (by rw [hsz]; omega)]
  rw [htake, ← hbas]

end OctoBloomFilter

theorem fromLE_take (buf : List ℕ) (size o w : ℕ) (h : o + w ≤ size) :
    fromLE (buf.take size) o w = fromLE buf o w := by
  induction w generalizing o with
  | zero => rfl
  | succ n ih =>
      unfold fromLE
      have ho : o < size := by omega
      have hgd : (buf.take size).getD o 0 = buf.getD o 0 := by
        rw [List.getD_eq_getElem?_getD, List.getD_eq_getElem?_getD,
          List.getElem?_take, if_pos ho]
      rw [hgd, ih (o + 1) (by omega)]

theorem deserialize_take (f : OctoBloomFilter) (buf : List ℕ) (size : ℕ) :
    OctoBloomFilter.deserialize f (buf.take size) size =
      OctoBloomFilter.deserialize f buf size := by
  by_cases h28 : size < 8 * 3 + 4
  · simp only [OctoBloomFilter.deserialize, if_pos h28]
  · simp only [OctoBloomFilter.deserialize, if_neg h28]
    rw [fromLE_take buf size 0 8 (by omega), fromLE_take buf size 8 8 (by omega),
      fromLE_take buf size 16 8 (by omega), fromLE_take buf size 24 4 (by omega)]
    by_cases h2 :
        size < (8 * 3 + 4 + ((fromLE buf 8 8 + 7) % 2 ^ 64) / 8) % 2 ^ 64
    · rw [if_pos h2, if_pos h2]
    · rw [if_neg h2, if_neg h2]
      have hmlt : (fromLE buf 8 8 + 7) % 2 ^ 64 < 2 ^ 64 :=
        Nat.mod_lt _ (by norm_num)
      have hsz : (8 * 3 + 4 + ((fromLE buf 8 8 + 7) % 2 ^ 64) / 8) % 2 ^ 64
          = 28 + ((fromLE buf 8 8 + 7) % 2 ^ 64) / 8 :=
        Nat.mod_eq_of_lt (by omega)
      rw [hsz] at h2
      have hbits : ((buf.take size).drop 28).take
            (((fromLE buf 8 8 + 7) % 2 ^ 64) / 8) =
          (buf.drop 28).take (((fromLE buf 8 8 + 7) % 2 ^ 64) / 8) := by
        rw [List.drop_take, List.take_take, min_eq_left (by omega)]
      rw [hbits]

theorem deserialize_fst_true_iff (f : OctoBloomFilter) (buf : List ℕ)
    (size : ℕ) :
    ((OctoBloomFilter.deserialize f buf size).1 = true ↔
      28 + ((fromLE buf 8 8 + 7) % 2 ^ 64) / 8 ≤ size) := by
  have hmlt : (fromLE buf 8 8 + 7) % 2 ^ 64 < 2 ^ 64 :=
    Nat.mod_lt _ (by norm_num)
  have hsz : (8 * 3 + 4 + ((fromLE buf 8 8 + 7) % 2 ^ 64) / 8) % 2 ^ 64
      = 28 + ((fromLE buf 8 8 + 7) % 2 ^ 64) / 8 :=
    Nat.mod_eq_of_lt (by omega)
  by_cases h28 : size < 8 * 3 + 4
  · simp only [OctoBloomFilter.deserialize, if_pos h28]
    constructor
    · intro h; exact absurd h (by simp)
    · intro h; omega
  · simp only [OctoBloomFilter.deserialize, if_neg h28]
    by_cases h2 :
        size < (8 * 3 + 4 + ((fromLE buf 8 8 + 7) % 2 ^ 64) / 8) % 2 ^ 64
    · rw [if_pos h2]
      rw [hsz] at h2
      constructor
      · intro h; exact absurd h (by simp)
      · intro h; omega
    · rw [if_neg h2]
      rw [hsz] at h2
      constructor
      · intro _; omega
      · intro _; rfl

/-! Registry lemmas. -/

theorem regFind_regReplace_self (reg : Registry) (k : RegKey)
    (e x : BloomRegistryEntry) (h : regFind reg k = some e) :
    regFind (regReplace reg k x) k = some x := by
  induction reg with
  | nil => cases h
  | cons p t ih =>
      obtain ⟨k0, e0⟩ := p
      by_cases hk : k0 = k
      · simp [regReplace, regFind, hk]
      · simp only [regFind, if_neg hk] at h
        simp only [regReplace, if_neg hk, regFind]
        exact ih h

theorem regReplace_keys (reg : Registry) (k : RegKey)
    (x : BloomRegistryEntry) :
    (regReplace reg k x).map Prod.fst = reg.map Prod.fst := by
  induction reg with
  | nil => rfl
  | cons p t ih =>
      obtain ⟨k0, e0⟩ := p
      by_cases hk : k0 = k
      · simp [regReplace, hk]
      · simp [regReplace, hk, ih]

/-! Claim theorems. -/

open OctoBloomFilter

/-- C1: for every byte sequence x (the empty one included) added to a
well-formed BloomFilter f via add, mightContain x answers true in every
subsequent reachable state: immediately after the add, after any further
sequence ys of adds of arbitrary values, and after a round trip of the
resulting filter through serialize/deserialize (into any target filter
g). -/
theorem C1_no_false_negatives (hA : List ℕ → ℕ) (f g : OctoBloomFilter)
    (x : List ℕ) (ys : List (List ℕ)) (hf : f.WF) :
    mightContain hA (List.foldl (add hA) (add hA f x) ys) x = true ∧
    mightContain hA
      (deserialize g (List.foldl (add hA) (add hA f x) ys).serialize
        (List.foldl (add hA) (add hA f x) ys).getSerializedSize).2 x =
      true := by
  have h1 : mightContain hA (List.foldl (add hA) (add hA f x) ys) x = true :=
    mightContain_foldl_add_mono hA _ x ys (mightContain_add_self hA f x hf)
  have hwf : (List.foldl (add hA) (add hA f x) ys).WF :=
    WF_foldl_add hA _ ys (WF_add hA f x hf)
  refine ⟨h1, ?_⟩
  rw [deserialize_serialize g _ hwf]
  exact h1

/-- Witness for C1: the filter construct 1 0 0 0 is well-formed, and after
adding [5, 6] followed by [7], both the live filter and its
serialize/deserialize round trip still report [5, 6]. -/
theorem C1_no_false_negatives_witness :
    (construct 1 0 0 0).WF ∧
    (mightContain (fun _ => 0)
        (List.foldl (add (fun _ => 0))
          (add (fun _ => 0) (construct 1 0 0 0) [5, 6]) [[7]]) [5, 6] =
        true ∧
      mightContain (fun _ => 0)
        (deserialize (construct 1 0 0 0)
          (List.foldl (add (fun _ => 0))
            (add (fun _ => 0) (construct 1 0 0 0) [5, 6]) [[7]]).serialize
          (List.foldl (add (fun _ => 0))
            (add (fun _ => 0) (construct 1 0 0 0) [5, 6]) [[7]]).getSerializedSize).2
        [5, 6] = true) :=
  ⟨by decide,
    C1_no_false_negatives (fun _ => 0) (construct 1 0 0 0) (construct 1 0 0 0)
      [5, 6] [[7]] (by decide)⟩

/-- C2: for every well-formed BloomFilter f, deserialize applied (to any
receiver g) on the exact buffer produced by serialize f, with the size
reported by getSerializedSize, succeeds and reproduces f itself — all
fields including the bit buffer — and hence answers mightContain exactly
as f on every byte sequence. -/
theorem C2_serialize_roundtrip (g f : OctoBloomFilter) (hf : f.WF) :
    (deserialize g f.serialize f.getSerializedSize).1 = true ∧
    (deserialize g f.serialize f.getSerializedSize).2 = f ∧
    ∀ (hA : List ℕ → ℕ) (x : List ℕ),
      mightContain hA (deserialize g f.serialize f.getSerializedSize).2 x =
        mightContain hA f x := by
  have h := deserialize_serialize g f hf
  rw [h]
  exact ⟨rfl, rfl, fun _ _ => rfl⟩

/-- Witness for C2 at a concrete filter with a set bit. -/
theorem C2_serialize_roundtrip_witness :
    (add (fun _ => 3) (construct 2 0 0 0) [9]).WF ∧
    (deserialize (construct 1 0 0 0)
        (add (fun _ => 3) (construct 2 0 0 0) [9]).serialize
        (add (fun _ => 3) (construct 2 0 0 0) [9]).getSerializedSize).1 =
      true ∧
    (deserialize (construct 1 0 0 0)
        (add (fun _ => 3) (construct 2 0 0 0) [9]).serialize
        (add (fun _ => 3) (construct 2 0 0 0) [9]).getSerializedSize).2 =
      add (fun _ => 3) (construct 2 0 0 0) [9] :=
  ⟨by decide,
    (C2_serialize_roundtrip (construct 1 0 0 0) _ (by decide)).1,
    (C2_serialize_roundtrip (construct 1 0 0 0) _ (by decide)).2.1⟩

/-- C3: the SQL-level membership call returns true whenever the registry
lookup yields no usable filter (no entry for the key, or the entry is
invalid), and whenever the looked-up filter has bit-array size zero;
only a valid entry holding a filter with non-zero bit-array size makes
it return that filter answer on the value. -/
theorem C3_fail_open (hA : List ℕ → ℕ) (reg : Registry) (oid : ℕ)
    (attnum : ℤ) (v : List ℕ) :
    (regFind reg (oid, attnum) = none →
      octo_bloom_might_contain hA reg oid attnum v = true) ∧
    (∀ e, regFind reg (oid, attnum) = some e → e.is_valid = false →
      octo_bloom_might_contain hA reg oid attnum v = true) ∧
    (∀ e fl, regFind reg (oid, attnum) = some e → e.is_valid = true →
      e.filter = some fl → fl.bit_array_size = 0 →
      octo_bloom_might_contain hA reg oid attnum v = true) ∧
    (∀ e fl, regFind reg (oid, attnum) = some e → e.is_valid = true →
      e.filter = some fl → fl.bit_array_size ≠ 0 →
      octo_bloom_might_contain hA reg oid attnum v =
        fl.mightContain hA v) := by
  refine ⟨?_, ?_, ?_, ?_⟩
  · intro h
    simp [octo_bloom_might_contain, get_bloom_filter, h]
  · intro e he hv
    simp [octo_bloom_might_contain, get_bloom_filter, he, hv]
  · intro e fl he hv hfl hz
    simp [octo_bloom_might_contain, get_bloom_filter, he, hv, hfl, hz]
  · intro e fl he hv hfl hz
    simp [octo_bloom_might_contain, get_bloom_filter, he, hv, hfl, hz]

/-- Witness for C3: the empty registry fails open, and a registry holding
a valid filter under key (2, 3) delegates to the filter answer. -/
theorem C3_fail_open_witness :
    octo_bloom_might_contain (fun _ => 0) [] 1 1 [4] = true ∧
    octo_bloom_might_contain (fun _ => 0)
        [((2, 3),
          { table_oid := 2, attnum := 3,
            filter := some (construct 1 0 0 0), expected_count := 1,
            false_positive_rate_bits := 0, current_count := 0,
            is_valid := true })] 2 3 [4] =
      mightContain (fun _ => 0) (construct 1 0 0 0) [4] :=
  ⟨(C3_fail_open (fun _ => 0) [] 1 1 [4]).1 rfl,
    (C3_fail_open (fun _ => 0)
      [((2, 3),
        { table_oid := 2, attnum := 3,
          filter := some (construct 1 0 0 0), expected_count := 1,
          false_positive_rate_bits := 0, current_count := 0,
          is_valid := true })] 2 3 [4]).2.2.2
      _ _ rfl rfl rfl (by decide)⟩

/-- C4: a filter built by the constructor (for any inputs, with the raw
size_t bit count below the non-wrapping bound) has 1 ≤ numHashes ≤ 50,
bitArraySizeBits ≥ 64, a byte buffer of length
ceil(bitArraySizeBits / 8), and that buffer entirely zero. -/
theorem C4_parameter_bounds (ec fpr rb rh : ℕ) (hrb : rb < 2 ^ 64 - 7) :
    1 ≤ (construct ec fpr rb rh).num_hashes ∧
    (construct ec fpr rb rh).num_hashes ≤ 50 ∧
    64 ≤ (construct ec fpr rb rh).bit_array_size ∧
    (construct ec fpr rb rh).bits.length =
      ((construct ec fpr rb rh).bit_array_size + 7) / 8 ∧
    ∀ b ∈ (construct ec fpr rb rh).bits, b = 0 := by
  have hmod : rb % 2 ^ 64 = rb := Nat.mod_eq_of_lt (by omega)
  refine ⟨construct_num_hashes_pos ec fpr rb rh, ?_, ?_, ?_, ?_⟩
  · rw [construct_num_hashes]; omega
  · rw [construct_bit_array_size]; omega
  · rw [construct_bits, List.length_replicate, construct_bit_array_size,
      hmod, Nat.mod_eq_of_lt (by omega)]
  · intro b hb
    rw [construct_bits] at hb
    exact List.eq_of_mem_replicate hb

/-- Witness for C4 at the smallest inputs. -/
theorem C4_parameter_bounds_witness :
    (0 : ℕ) < 2 ^ 64 - 7 ∧
    (1 ≤ (construct 1 0 0 0).num_hashes ∧
      (construct 1 0 0 0).num_hashes ≤ 50 ∧
      64 ≤ (construct 1 0 0 0).bit_array_size ∧
      (construct 1 0 0 0).bits.length =
        ((construct 1 0 0 0).bit_array_size + 7) / 8 ∧
      ∀ b ∈ (construct 1 0 0 0).bits, b = 0) :=
  ⟨by norm_num, C4_parameter_bounds 1 0 0 0 (by norm_num)⟩

/-- C5 (amended): bitArraySizeBits is at least 64 at construction and is
unchanged by add, clear and remove (and mightContain and serialize do
not mutate the filter at all); deserialize, however, overwrites it with
the declared value from the buffer. -/
theorem C5_bit_array_size_stable (hA : List ℕ → ℕ) (ec fpr rb rh : ℕ)
    (f : OctoBloomFilter) (x : List ℕ) :
    64 ≤ (construct ec fpr rb rh).bit_array_size ∧
    (add hA f x).bit_array_size = f.bit_array_size ∧
    (clear f).bit_array_size = f.bit_array_size ∧
    (remove f x).bit_array_size = f.bit_array_size := by
  refine ⟨?_, (add_fields hA f x).2.2.2.1, rfl, rfl⟩
  rw [construct_bit_array_size]
  omega

/-- Counterexample to C5 as stated: deserialize is an operation on the
instance, and a successful deserialize of a buffer declaring 8 bits
changes bitArraySizeBits from 64 to 8 — both mutating it and driving it
below 64. -/
theorem C5_deserialize_changes_bit_array_size :
    (construct 1 0 0 0).bit_array_size = 64 ∧
    (deserialize (construct 1 0 0 0)
        (toLE 8 1 ++ toLE 8 8 ++ toLE 8 0 ++ toLE 4 1 ++ [0]) 29).1 =
      true ∧
    (deserialize (construct 1 0 0 0)
        (toLE 8 1 ++ toLE 8 8 ++ toLE 8 0 ++ toLE 4 1 ++ [0])
        29).2.bit_array_size = 8 := by
  refine ⟨rfl, ?_, ?_⟩ <;> decide

/-- C6 (amended): deserialize returns true exactly when the size is at
least 28 plus the bit-buffer length computed from the declared bit count
in 64-bit size_t arithmetic (so a declared count above 2^64 - 8 wraps
and the length check degenerates), and its result depends only on the
first size bytes of the buffer. -/
theorem C6_deserialize_bounds (f : OctoBloomFilter) (buf : List ℕ)
    (size : ℕ) :
    ((deserialize f buf size).1 = true ↔
      28 + ((fromLE buf 8 8 + 7) % 2 ^ 64) / 8 ≤ size) ∧
    deserialize f (buf.take size) size = deserialize f buf size :=
  ⟨deserialize_fst_true_iff f buf size, deserialize_take f buf size⟩

/-- Counterexample to C6 as stated: a 28-byte buffer declaring
bitArraySizeBits = 2^64 - 1 is shorter than 28 plus the mathematical
ceil(declared / 8), yet deserialize accepts it, because the size_t
computation of the required length wraps to 28. -/
theorem C6_overflow_accepts_short_buffer :
    fromLE (toLE 8 0 ++ List.replicate 8 255 ++ toLE 8 0 ++ toLE 4 0) 8 8 =
      2 ^ 64 - 1 ∧
    (deserialize (construct 1 0 0 0)
        (toLE 8 0 ++ List.replicate 8 255 ++ toLE 8 0 ++ toLE 4 0) 28).1 =
      true ∧
    28 < 28 +
      (fromLE (toLE 8 0 ++ List.replicate 8 255 ++ toLE 8 0 ++ toLE 4 0) 8 8
          + 7) / 8 := by
  refine ⟨?_, ?_, ?_⟩ <;> decide

/-- C7: evaluation at the failing input.  The registry maps key (1, 1) to
a valid entry holding a live filter; register_bloom_filter for that key
with a failing allocation (alloc_ok = false) destroys and frees the old
filter before attempting the new allocation, so the failed call leaves
the entry with no filter while still marked valid — the previous entry
is not left untouched. -/
theorem C7_alloc_failure_destroys_old_filter :
    (register_bloom_filter
        [((1, 1),
          { table_oid := 1, attnum := 1,
            filter := some (construct 5 0 0 0), expected_count := 5,
            false_positive_rate_bits := 0, current_count := 3,
            is_valid := true })] 1 1 9 0 0 0 false).1 = none ∧
    regFind
        (register_bloom_filter
          [((1, 1),
            { table_oid := 1, attnum := 1,
              filter := some (construct 5 0 0 0), expected_count := 5,
              false_positive_rate_bits := 0, current_count := 3,
              is_valid := true })] 1 1 9 0 0 0 false).2 (1, 1) =
      some
        { table_oid := 1, attnum := 1, filter := none, expected_count := 5,
          false_positive_rate_bits := 0, current_count := 3,
          is_valid := true } := by
  refine ⟨?_, ?_⟩ <;> decide

/-- C8: a successful re-register (allocations succeeding) for a key that
already has an entry reports success, keeps the key set of the registry
unchanged (so no second entry is created for the key), and leaves the
key mapped to the old entry updated in place: a freshly constructed
filter from the given parameters, observed count reset to 0, and
valid = true. -/
theorem C8_reregister_updates_in_place (reg : Registry) (oid : ℕ)
    (attnum : ℤ) (ec fpr rb rh : ℕ) (e : BloomRegistryEntry)
    (h : regFind reg (oid, attnum) = some e) :
    (register_bloom_filter reg oid attnum ec fpr rb rh true).1 =
      some true ∧
    (register_bloom_filter reg oid attnum ec fpr rb rh true).2.map
        Prod.fst = reg.map Prod.fst ∧
    regFind (register_bloom_filter reg oid attnum ec fpr rb rh true).2
        (oid, attnum) =
      some
        { e with
          filter := some (construct ec fpr rb rh)
          expected_count := ec
          false_positive_rate_bits := fpr
          current_count := 0
          is_valid := true } := by
  simp only [register_bloom_filter, h]
  rw [if_pos trivial]
  exact ⟨rfl, regReplace_keys reg _ _, regFind_regReplace_self reg _ e _ h⟩

/-- Witness for C8 at a concrete one-entry registry. -/
theorem C8_reregister_updates_in_place_witness :
    regFind
        [((2, 3),
          { table_oid := 2, attnum := 3, filter := some (construct 1 0 0 0),
            expected_count := 1, false_positive_rate_bits := 0,
            current_count := 7, is_valid := false })] ((2 : ℕ), (3 : ℤ)) =
      some
        { table_oid := 2, attnum := 3, filter := some (construct 1 0 0 0),
          expected_count := 1, false_positive_rate_bits := 0,
          current_count := 7, is_valid := false } ∧
    regFind
        (register_bloom_filter
          [((2, 3),
            { table_oid := 2, attnum := 3, filter := some (construct 1 0 0 0),
              expected_count := 1, false_positive_rate_bits := 0,
              current_count := 7, is_valid := false })] 2 3 4 0 0 0 true).2
        (2, 3) =
      some
        { table_oid := 2, attnum := 3, filter := some (construct 4 0 0 0),
          expected_count := 4, false_positive_rate_bits := 0,
          current_count := 0, is_valid := true } :=
  ⟨by decide,
    (C8_reregister_updates_in_place
      [((2, 3),
        { table_oid := 2, attnum := 3, filter := some (construct 1 0 0 0),
          expected_count := 1, false_positive_rate_bits := 0,
          current_count := 7, is_valid := false })] 2 3 4 0 0 0
      { table_oid := 2, attnum := 3, filter := some (construct 1 0 0 0),
        expected_count := 1, false_positive_rate_bits := 0,
        current_count := 7, is_valid := false } (by decide)).2.2⟩

/-- C10: a freshly constructed filter answers mightContain = false for
every byte sequence (the empty one included), and so does any filter
with at least one hash immediately after clear, because every bit of the
buffer is zero. -/
theorem C10_fresh_and_cleared_answer_false (hA : List ℕ → ℕ)
    (ec fpr rb rh : ℕ) (f : OctoBloomFilter) (x : List ℕ)
    (hnh : 1 ≤ f.num_hashes) :
    mightContain hA (construct ec fpr rb rh) x = false ∧
    mightContain hA (clear f) x = false := by
  constructor
  · rw [mightContain_eq_all]
    apply List.all_eq_false.mpr
    refine ⟨0, List.mem_range.mpr ?_, ?_⟩
    · have := construct_num_hashes_pos ec fpr rb rh
      omega
    · rw [construct_bits, testBitAt_replicate_zero]
      simp
  · rw [mightContain_eq_all]
    apply List.all_eq_false.mpr
    refine ⟨0, List.mem_range.mpr ?_, ?_⟩
    · exact hnh
    · have hb : (clear f).bits = List.replicate f.byte_array_size 0 := rfl
      rw [hb, testBitAt_replicate_zero]
      simp

/-- Witness for C10 at concrete inputs, including the empty sequence. -/
theorem C10_fresh_and_cleared_answer_false_witness :
    1 ≤ (construct 3 0 0 0).num_hashes ∧
    (mightContain (fun _ => 5) (construct 2 0 0 0) [] = false ∧
      mightContain (fun _ => 5) (clear (construct 3 0 0 0)) [] = false) :=
  ⟨by decide,
    C10_fresh_and_cleared_answer_false (fun _ => 5) 2 0 0 0
      (construct 3 0 0 0) [] (by decide)⟩

end OctoBloom
